import Mathlib

/- Verification of the per-example Jacobian instrumentation engine of
   nngeometry (src/nngeometry/ispace/l2loss.py, class L2Loss).

   Shallow embedding conventions:
   * Tensor entries live in an arbitrary commutative ring `R` (set to `ℝ`
     or `ℚ` for the idealized real/exact semantics of the torch floats,
     and to `ℤ` for concrete kernel-computable instances).  A matrix is a
     total function `Mat R = ℕ → ℕ → R`; entries outside the intended
     shape are never read.  A torch slice assignment
     `G[r:r+nr, c:c+nc] += M` (slices in bounds, as in every execution
     analysed here) is `blockAdd`.
   * Autograd and the loss closure are external collaborators.  The values
     captured by the instrumentation hooks are ambient data
     `x gy : ℕ → ℕ → Mat R` (layer index → batch index → captured
     matrix): `x l b` is the input-activation matrix the forward pre-hook
     of layer `l` sees on batch `b` (one row per example), `gy l b` the
     output gradient the backward hook sees.  Re-running a batch
     re-produces the same captures (the data loader is restartable and not
     shuffled inside a query, cf. spec section 6).
   * A torch module is `LayerMod`: its class name, optional weight and
     bias shapes (`none` = the attribute is `None` / absent) and their
     `requires_grad` flags.  A model is the list of its parameter-carrying
     modules in `model.modules()` traversal order.
   * Python exceptions are the `QErr` error type; a query returns
     `Except QErr _` plus its final instrumentation state (`Outcome`). -/

abbrev Mat (R : Type) : Type := ℕ → ℕ → R

section Engine

variable {R : Type} [CommRing R]

/-- Embeds `torch.mm(A, B.t())` with inner dimension `d`:
entry `(a,b)` is `∑ k < d, A a k * B b k`. -/
def mulT (d : ℕ) (A B : Mat R) : Mat R := fun a b => ∑ k ∈ Finset.range d, A a k * B b k

/-- Embeds the torch slice assignment `G[r:r+nr, c:c+nc] += M`. -/
def blockAdd (G : Mat R) (r c nr nc : ℕ) (M : Mat R) : Mat R := fun p q =>
  if r ≤ p ∧ p < r + nr ∧ c ≤ q ∧ q < c + nc then G p q + M (p - r) (q - c) else G p q

/-- Embeds the torch slice assignment `w[st:st+len] += u` on a vector. -/
def rangeAdd (w : ℕ → R) (st len : ℕ) (u : ℕ → R) : ℕ → R := fun t =>
  if st ≤ t ∧ t < st + len then w t + u (t - st) else w t

end Engine

/-- One torch module as seen by `L2Loss`: class name, optional weight and
bias shapes, and their `requires_grad` flags. -/
structure LayerMod where
  className : String
  weight : Option (List ℕ)
  wReqGrad : Bool
  bias : Option (List ℕ)
  bReqGrad : Bool
deriving DecidableEq

def dummyMod : LayerMod := ⟨"", none, true, none, true⟩

instance : Inhabited LayerMod := ⟨dummyMod⟩

/-- Shape of `mod.weight` (only ever used on retained modules, which have a
weight in any well-formed torch model). -/
def wShape (m : LayerMod) : List ℕ := m.weight.getD []

/-- Embeds `mod.weight.numel()`. -/
def wNumel (m : LayerMod) : ℕ := (wShape m).prod

/-- Out features of a `Linear` layer: `mod.weight.size(0)`. -/
def dOut (m : LayerMod) : ℕ := (wShape m).getD 0 0

/-- In features of a `Linear` layer: `mod.weight.size(1)`. -/
def dIn (m : LayerMod) : ℕ := (wShape m).getD 1 0

/-- Embeds `mod.bias is not None`. -/
def hasBias (m : LayerMod) : Bool := m.bias.isSome

/-- Embeds `mod.bias.numel()` (0 when there is no bias). -/
def bNumel (m : LayerMod) : ℕ := (m.bias.map List.prod).getD 0

/-- Total parameter count a retained module contributes to the flat layout:
`mod.weight.numel()` plus `mod.bias.numel()` when a bias is present. -/
def modNumel (m : LayerMod) : ℕ := wNumel m + bNumel m

/-- Embeds the retention test `mod.__class__.__name__ in ['Linear', 'Conv2d']`. -/
def isSupported (m : LayerMod) : Bool := m.className = "Linear" || m.className = "Conv2d"

/-- Python exceptions raised by `L2Loss`. -/
inductive QErr where
  /-- `raise NotImplementedError` in the backward hooks. -/
  | notImpl
  /-- torch shape mismatch when `self._c` does not match the batch size. -/
  | shapeMismatch
  /-- `AttributeError`: a retained module without a `weight` attribute. -/
  | attrMissing
  /-- a failed `assert` in `_get_individual_modules`. -/
  | assertFail
deriving DecidableEq

/-- The `(shape, requires_grad)` pairs of one module's parameters, weight
first, in registration order — the module's contribution to
`model.parameters()`. -/
def modParams (m : LayerMod) : List (List ℕ × Bool) :=
  (m.weight.map (fun s => (s, m.wReqGrad))).toList ++ (m.bias.map (fun s => (s, m.bReqGrad))).toList

/-- Embeds `[p.size() for p in model.parameters() if p.requires_grad]`. -/
def sizesFlat (model : List LayerMod) : List (List ℕ) :=
  (((model.map modParams).flatten).filter (fun p => p.2)).map (fun p => p.1)

/-- Embeds the `sizes_mods` list of `_get_individual_modules`: for every
retained module, its weight shape followed by its bias shape when the bias
is present (no `requires_grad` filter). -/
def sizesMods (model : List LayerMod) : List (List ℕ) :=
  ((model.filter (fun m => isSupported m)).map (fun m => wShape m :: (m.bias.map id).toList)).flatten

/-- Identity tags of one enumerated module's parameter tensors:
`(module index, is-the-weight)`. -/
def paramTags (l : List (ℕ × LayerMod)) : List (ℕ × Bool) :=
  (l.map (fun p =>
    (p.2.weight.map (fun _ => (p.1, true))).toList ++
      (p.2.bias.map (fun _ => (p.1, false))).toList)).flatten

/-- Embeds `len(set(parameters) - set(model.parameters())) == 0`: every
parameter tensor collected from the retained modules is (by identity) a
parameter of the model. -/
def subsetCheck (model : List LayerMod) : Bool :=
  (paramTags ((model.enum).filter (fun p => isSupported p.2))).all
    (fun t => decide (t ∈ paramTags model.enum))

/-- Flat offset of the `k`-th retained module (`self.p_pos`): the running
`start` counter of `_get_individual_modules` just before that module's
parameters are appended. -/
def pPos (mods : List LayerMod) (k : ℕ) : ℕ := ((mods.take k).map modNumel).sum

/-- The recorded `p_pos` table, as a list indexed like the retained-module
list. -/
def pPosList (mods : List LayerMod) : List ℕ :=
  (List.range mods.length).map (fun k => pPos mods k)

/-- Embeds `L2Loss._get_individual_modules`: filter the retained
(`Linear`/`Conv2d`) modules, record their flat offsets, and run the two
asserts (`sizes_mods == sizes_flat`, and the retained parameters are a
subset of the model's parameters). -/
def getIndividualModules (model : List LayerMod) :
    Except QErr (List LayerMod × List ℕ) :=
  let mods := model.filter (fun m => isSupported m)
  if mods.all (fun m => m.weight.isSome) then
    if sizesMods model = sizesFlat model then
      if subsetCheck model then Except.ok (mods, pPosList mods)
      else Except.error QErr.assertFail
    else Except.error QErr.assertFail
  else Except.error QErr.attrMissing

/-- Transient instrumentation buffers of the generator (`self.x_outer`,
`self.x_inner`, `self.gy_outer`, `self.xs`), as association lists keyed by
the retained-layer index (dict keys are module identities in the source). -/
structure Buffers (R : Type) where
  xOuter : List (ℕ × Mat R)
  xInner : List (ℕ × Mat R)
  gyOuter : List (ℕ × Mat R)
  xs : List (ℕ × Mat R)

def emptyBuffers {R : Type} : Buffers R := ⟨[], [], [], []⟩

/-- Python dict assignment `d[k] = v`: overwrite the binding if the key is
present, append it otherwise. -/
def dictSet {R : Type} (d : List (ℕ × Mat R)) (k : ℕ) (v : Mat R) : List (ℕ × Mat R) :=
  match d with
  | [] => [(k, v)]
  | (k1, v1) :: rest => if k1 = k then (k, v) :: rest else (k1, v1) :: dictSet rest k v

/-- One instrumented pass's stores into a layer-keyed dict: every retained
layer's hook fires once and stores its captured matrix `f li b`. -/
def storeAll {R : Type} (mods : List LayerMod) (f : ℕ → ℕ → Mat R) (b : ℕ)
    (d : List (ℕ × Mat R)) : List (ℕ × Mat R) :=
  (mods.enum).foldl (fun acc km => dictSet acc km.1 (f km.1 b)) d

/-- Mutable per-query state of the engine: the Gram matrix accumulator
`self.G`, the flat-gradient accumulator `self._cTv`, the offsets
`self.e_outer` / `self.e_inner`, the current slice `self._c`, and the
instrumentation buffers. -/
structure EngSt (R : Type) where
  G : Mat R
  cTv : ℕ → R
  eOuter : ℕ
  eInner : ℕ
  c : List R
  bufs : Buffers R

section Engine2

variable {R : Type} [CommRing R]

def initSt (b0 : Buffers R) : EngSt R := ⟨fun _ _ => 0, fun _ => 0, 0, 0, [], b0⟩

/-- Runs loop steps in order, stopping at the first raised exception and
returning the state at that point. -/
def foldSteps (f : ℕ → EngSt R → EngSt R × Option QErr) :
    List ℕ → EngSt R → EngSt R × Option QErr
  | [], s => (s, none)
  | a :: l, s =>
    match f a s with
    | (s1, none) => foldSteps f l s1
    | (s1, some e) => (s1, some e)

/-- The inner-pass branch of `_hook_compute_flat_grad`
(`outerloop_switch == False`), fired once per retained layer `(li, m)` on
the backward pass of inner batch `i` while outer batch `o` is cached:
for a `Linear` layer add
`mm(x_inner, x_outer.t()) * mm(gy_inner, gy_outer.t())` into
`G[eI:eI+bsI, eO:eO+bsO]`, then `mm(gy_inner, gy_outer.t())` again if the
layer has a bias; any other class raises `NotImplementedError`. -/
def flatGradHooks (x gy : ℕ → ℕ → Mat R) (o i eI eO bsI bsO : ℕ) :
    List (ℕ × LayerMod) → Mat R → Mat R × Option QErr
  | [], G => (G, none)
  | (li, m) :: rest, G =>
    if m.className = "Linear" then
      let G1 := blockAdd G eI eO bsI bsO
        (fun a b => mulT (dIn m) (x li i) (x li o) a b * mulT (dOut m) (gy li i) (gy li o) a b)
      let G2 := if hasBias m then
          blockAdd G1 eI eO bsI bsO (mulT (dOut m) (gy li i) (gy li o))
        else G1
      flatGradHooks x gy o i eI eO bsI bsO rest G2
    else (G, some QErr.notImpl)

/-- One iteration of the inner loop of `get_matrix` (inner batch `i`,
outer batch `o`): the forward pre-hooks store `x_inner`, the backward
hooks accumulate into `G`, then (for `i < o`) the block
`G[e_outer:, e_inner:]` is completed by the transposed copy
`G[e_inner:, e_outer:].t()`, and `e_inner` advances by the inner batch
size. -/
def innerStep (mods : List LayerMod) (sizes : List ℕ) (x gy : ℕ → ℕ → Mat R)
    (o bsO : ℕ) (i : ℕ) (s : EngSt R) : EngSt R × Option QErr :=
  let bufs1 := { s.bufs with xInner := storeAll mods x i s.bufs.xInner }
  let bsI := sizes.getD i 0
  match flatGradHooks x gy o i s.eInner s.eOuter bsI bsO (mods.enum) s.G with
  | (G1, some e) => ({ s with bufs := bufs1, G := G1 }, some e)
  | (G1, none) =>
    let G2 := if i < o then
        blockAdd G1 s.eOuter s.eInner bsO bsI (fun a b => G1 (s.eInner + b) (s.eOuter + a))
      else G1
    ({ s with bufs := bufs1, G := G2, eInner := s.eInner + bsI }, none)

/-- One iteration of the outer loop of `get_matrix` (outer batch `o`, out
of `B` batches): the outer pass caches `x_outer` and `gy_outer`, the inner
loop runs over batches `0..o`, and then `e_outer` is advanced by
`inputs.size(0)` — where `inputs` is the leftover loop variable of the
exhausted inner loop, i.e. batch `min(o+1, B-1)`, not batch `o`. -/
def outerStep (mods : List LayerMod) (sizes : List ℕ) (x gy : ℕ → ℕ → Mat R)
    (B : ℕ) (o : ℕ) (s : EngSt R) : EngSt R × Option QErr :=
  let bufs1 := { s.bufs with
    xOuter := storeAll mods x o s.bufs.xOuter,
    gyOuter := storeAll mods gy o s.bufs.gyOuter }
  let s1 := { s with bufs := bufs1, eInner := 0 }
  match foldSteps (innerStep mods sizes x gy o (sizes.getD o 0)) (List.range (o + 1)) s1 with
  | (s2, none) => ({ s2 with eOuter := s2.eOuter + sizes.getD (min (o + 1) (B - 1)) 0 }, none)
  | (s2, some e) => (s2, some e)

end Engine2

/-- Result of one query: the returned value or the raised exception, the
instrumentation buffers after the query, and the number of hook handles
still registered on the model. -/
structure Outcome (R : Type) (α : Type) where
  result : Except QErr α
  bufs : Buffers R
  activeHooks : ℕ

section Engine3

variable {R : Type} [CommRing R]

/-- Embeds `L2Loss.get_matrix`, started with instrumentation buffers `b0`:
register two hooks per retained layer, run the nested double pass over the
loader, and on normal return reset `x_inner` and `x_outer` and remove the
hooks.  On an exception the removal and the resets are skipped (there is
no `try/finally` in the source). -/
def getMatrixQ (mods : List LayerMod) (sizes : List ℕ) (x gy : ℕ → ℕ → Mat R)
    (b0 : Buffers R) : Outcome R (Mat R) :=
  let B := sizes.length
  match foldSteps (outerStep mods sizes x gy B) (List.range B) (initSt b0) with
  | (s, none) => ⟨Except.ok s.G, { s.bufs with xInner := [], xOuter := [] }, 0⟩
  | (s, some e) => ⟨Except.error e, s.bufs, 2 * mods.length⟩

/-- State of the engine after the first `o` iterations of the outer loop of
`get_matrix` (used to observe the `e_outer` loop offset). -/
def gmStateAfter (mods : List LayerMod) (sizes : List ℕ) (x gy : ℕ → ℕ → Mat R)
    (b0 : Buffers R) (o : ℕ) : EngSt R :=
  (foldSteps (outerStep mods sizes x gy sizes.length) (List.range o) (initSt b0)).1

/-- The Gram matrix a successful `get_matrix` query returns (zero matrix on
the error path; only used beneath a success hypothesis). -/
def gramOf (r : Outcome R (Mat R)) : Mat R :=
  match r.result with
  | Except.ok G => G
  | Except.error _ => fun _ _ => 0

def isOk {α : Type} (r : Outcome R α) : Bool :=
  match r.result with
  | Except.ok _ => true
  | Except.error _ => false

def errOf {α : Type} (r : Outcome R α) : Option QErr :=
  match r.result with
  | Except.ok _ => none
  | Except.error e => some e

/-- Embeds `self._c = v[i:i+bs]` for batch `b` of `implicit_m_norm`
(`i = b * bs`, Python slices clip at the end of the list). -/
def batchSlice (v : List R) (bs b : ℕ) : List R := (v.drop (b * bs)).take bs

/-- Embeds `_hook_compute_m_norm`, fired once per retained layer `(li, m)`
on the backward pass of batch `b`: for a `Linear` layer add
`mm(gy.t(), c.view(-1,1) * xs).view(-1)` into the weight slice of `_cTv`
and `mv(gy.t(), c)` into the bias slice; any other class raises
`NotImplementedError`.  The broadcast `c.view(-1,1) * xs` requires the
slice length to equal the batch size (torch raises otherwise). -/
def mNormHooks (mods : List LayerMod) (x gy : ℕ → ℕ → Mat R) (b : ℕ) (c : List R) (nb : ℕ) :
    List (ℕ × LayerMod) → (ℕ → R) → (ℕ → R) × Option QErr
  | [], w => (w, none)
  | (li, m) :: rest, w =>
    if m.className = "Linear" then
      if c.length = nb then
        let st := pPos mods li
        let w1 := rangeAdd w st (wNumel m)
          (fun t => ∑ a ∈ Finset.range nb,
            gy li b a (t / dIn m) * (c.getD a 0 * x li b a (t % dIn m)))
        let w2 := if hasBias m then
            rangeAdd w1 (st + wNumel m) (bNumel m)
              (fun k => ∑ a ∈ Finset.range nb, gy li b a k * c.getD a 0)
          else w1
        mNormHooks mods x gy b c nb rest w2
      else (w, some QErr.shapeMismatch)
    else (w, some QErr.notImpl)

/-- One iteration of the single loop of `implicit_m_norm` (batch `b`):
slice `self._c = v[i:i+bs]` with the loader's nominal batch size, store
`xs` in the forward pre-hooks, and accumulate into `_cTv` in the backward
hooks. -/
def mNormStep (mods : List LayerMod) (sizes : List ℕ) (x gy : ℕ → ℕ → Mat R)
    (bs : ℕ) (v : List R) (b : ℕ) (s : EngSt R) : EngSt R × Option QErr :=
  let c := batchSlice v bs b
  let bufs1 := { s.bufs with xs := storeAll mods x b s.bufs.xs }
  let nb := sizes.getD b 0
  match mNormHooks mods x gy b c nb (mods.enum) s.cTv with
  | (w, some e) => ({ s with bufs := bufs1, c := c, cTv := w }, some e)
  | (w, none) => ({ s with bufs := bufs1, c := c, cTv := w }, none)

/-- Embeds `L2Loss.implicit_m_norm` up to the final square root: one pass
over the loader, then `(self._cTv ** 2).sum()` over the `n_parameters`-long
buffer.  On normal return `xs` is reset and the hooks are removed; on an
exception both are skipped. -/
def implicitMNormQ (mods : List LayerMod) (sizes : List ℕ) (x gy : ℕ → ℕ → Mat R)
    (bs nParams : ℕ) (v : List R) (b0 : Buffers R) : Outcome R R :=
  match foldSteps (mNormStep mods sizes x gy bs v) (List.range sizes.length) (initSt b0) with
  | (s, none) =>
    ⟨Except.ok (∑ k ∈ Finset.range nParams, (s.cTv k) ^ 2), { s.bufs with xs := [] }, 0⟩
  | (s, some e) => ⟨Except.error e, s.bufs, 2 * mods.length⟩

end Engine3

/-- The scalar `implicit_m_norm` reports: `((_cTv ** 2).sum()) ** 0.5`,
over real-valued instrumentation data. -/
noncomputable def implicitMNorm (mods : List LayerMod) (sizes : List ℕ)
    (x gy : ℕ → ℕ → Mat ℝ) (bs nParams : ℕ) (v : List ℝ) (b0 : Buffers ℝ) :
    Except QErr ℝ :=
  (implicitMNormQ mods sizes x gy bs nParams v b0).result.map (fun sq => Real.sqrt sq)

/- Concrete fixtures.  `linMod11` is `nn.Linear(1, 1, bias=False)`,
   `linModB` is `nn.Linear(1, 1)` with bias, `convMod` is
   `nn.Conv2d(1, 1, 1)` without bias.  `onesZ` captures all activations
   and output gradients equal to 1, the simplest nonzero instrumentation
   data, over the kernel-computable scalars `ℤ`. -/

def linMod11 : LayerMod := ⟨"Linear", some [1, 1], true, none, true⟩

def linModB : LayerMod := ⟨"Linear", some [1, 1], true, some [1], true⟩

def convMod : LayerMod := ⟨"Conv2d", some [1, 1, 1, 1], true, none, true⟩

def onesZ : ℕ → ℕ → Mat ℤ := fun _ _ _ _ => 1

section Direct

variable {R : Type} [CommRing R]

/-- Per-layer Gram-block contribution of one retained `Linear` layer for
the ordered batch pair (inner, outer): the entry `(a, b)` of
`mm(X_inner, X_outer.t()) * mm(GY_inner, GY_outer.t())`, plus the entry of
`mm(GY_inner, GY_outer.t())` when the layer has a bias. -/
def layerVal (m : LayerMod) (xI xO gyI gyO : Mat R) (a b : ℕ) : R :=
  mulT (dIn m) xI xO a b * mulT (dOut m) gyI gyO a b +
    (if hasBias m then mulT (dOut m) gyI gyO a b else 0)

/-- Total directly accumulated Gram-block value for the ordered batch pair
(inner `i`, outer `o`): the sum of `layerVal` over all retained layers. -/
def directVal (mods : List LayerMod) (x gy : ℕ → ℕ → Mat R) (i o a b : ℕ) : R :=
  ((mods.enum).map
    (fun km => layerVal km.2 (x km.1 i) (x km.1 o) (gy km.1 i) (gy km.1 o) a b)).sum

end Direct

/- Block arithmetic used to characterise the Gram-matrix accumulation. -/

section BlockLemmas

variable {R : Type} [CommRing R]

theorem blockAdd_apply (G : Mat R) (r c nr nc : ℕ) (M : Mat R) (p q : ℕ) :
    blockAdd G r c nr nc M p q =
      G p q + (if r ≤ p ∧ p < r + nr ∧ c ≤ q ∧ q < c + nc then M (p - r) (q - c) else 0) := by
  unfold blockAdd
  split <;> simp

theorem rangeAdd_apply (w : ℕ → R) (st len : ℕ) (u : ℕ → R) (t : ℕ) :
    rangeAdd w st len u t = w t + (if st ≤ t ∧ t < st + len then u (t - st) else 0) := by
  unfold rangeAdd
  split <;> simp

theorem blockAdd_zero (G : Mat R) (r c nr nc : ℕ) :
    blockAdd G r c nr nc (fun _ _ => 0) = G := by
  funext p q
  unfold blockAdd
  split <;> simp

theorem blockAdd_blockAdd (G : Mat R) (r c nr nc : ℕ) (M1 M2 : Mat R) :
    blockAdd (blockAdd G r c nr nc M1) r c nr nc M2 =
      blockAdd G r c nr nc (fun a b => M1 a b + M2 a b) := by
  funext p q
  unfold blockAdd
  split <;> simp
  ring

end BlockLemmas

/-- Membership of a flat index in the `u`-th size-`bs` block. -/
def inBlk (u bs p : ℕ) : Prop := u * bs ≤ p ∧ p < u * bs + bs

instance (u bs p : ℕ) : Decidable (inBlk u bs p) := by
  unfold inBlk
  infer_instance

theorem inBlk_mk (u bs a : ℕ) (ha : a < bs) : inBlk u bs (u * bs + a) :=
  ⟨Nat.le_add_right _ _, by omega⟩

theorem inBlk_unique {u w bs p : ℕ} (h1 : inBlk u bs p) (h2 : inBlk w bs p) : u = w := by
  rcases h1 with ⟨h1a, h1b⟩
  rcases h2 with ⟨h2a, h2b⟩
  rcases Nat.lt_trichotomy u w with h | h | h
  · exfalso
    have hw : (u + 1) * bs ≤ w * bs := Nat.mul_le_mul_right bs h
    have hs : (u + 1) * bs = u * bs + bs := Nat.succ_mul u bs
    omega
  · exact h
  · exfalso
    have hw : (w + 1) * bs ≤ u * bs := Nat.mul_le_mul_right bs h
    have hs : (w + 1) * bs = w * bs + bs := Nat.succ_mul w bs
    omega

theorem foldSteps_append {R : Type} [CommRing R] (f : ℕ → EngSt R → EngSt R × Option QErr)
    (l1 l2 : List ℕ) (s : EngSt R) :
    foldSteps f (l1 ++ l2) s =
      match foldSteps f l1 s with
      | (s1, none) => foldSteps f l2 s1
      | (s1, some e) => (s1, some e) := by
  induction l1 generalizing s with
  | nil => simp [foldSteps]
  | cons a l ih =>
    simp only [List.cons_append, foldSteps]
    rcases h : f a s with ⟨s1, e⟩
    cases e <;> simp [ih]

theorem foldSteps_append_ok {R : Type} [CommRing R] (f : ℕ → EngSt R → EngSt R × Option QErr)
    (l1 l2 : List ℕ) (s s1 : EngSt R) (h : foldSteps f l1 s = (s1, none)) :
    foldSteps f (l1 ++ l2) s = foldSteps f l2 s1 := by
  rw [foldSteps_append, h]

section SpecG

variable {R : Type} [CommRing R]

/-- Spec-side description of one direct accumulation: the block of
ordered batch pair (inner `i`, outer `o`) sits at rows `i*bs..`, columns
`o*bs..` and holds `directVal` (all batches have size `bs`). -/
def dTerm (mods : List LayerMod) (x gy : ℕ → ℕ → Mat R) (bs i o : ℕ) : Mat R := fun p q =>
  if inBlk i bs p ∧ inBlk o bs q then directVal mods x gy i o (p - i * bs) (q - o * bs) else 0

/-- Spec-side description of one transposed copy: the mirrored block of
pair (inner `i`, outer `o`, with `i < o`) sits at rows `o*bs..`, columns
`i*bs..` and holds the transpose of the direct block. -/
def cTerm (mods : List LayerMod) (x gy : ℕ → ℕ → Mat R) (bs i o : ℕ) : Mat R := fun p q =>
  if inBlk o bs p ∧ inBlk i bs q then directVal mods x gy i o (q - i * bs) (p - o * bs) else 0

/-- Everything one outer-loop round `o` adds to `G`: direct blocks for all
inner batches `i ≤ o` plus transposed copies for all `i < o`. -/
def roundG (mods : List LayerMod) (x gy : ℕ → ℕ → Mat R) (bs o : ℕ) : Mat R := fun p q =>
  (∑ i ∈ Finset.range (o + 1), dTerm mods x gy bs i o p q) +
    (∑ i ∈ Finset.range o, cTerm mods x gy bs i o p q)

/-- The Gram accumulator after the first `oLim` outer rounds (all batches
of size `bs`, all retained layers `Linear`). -/
def specG (mods : List LayerMod) (x gy : ℕ → ℕ → Mat R) (bs oLim : ℕ) : Mat R := fun p q =>
  ∑ o ∈ Finset.range oLim, roundG mods x gy bs o p q

/-- The Gram accumulator in the middle of outer round `o`, after inner
iterations `0 .. i-1`. -/
def midG (mods : List LayerMod) (x gy : ℕ → ℕ → Mat R) (bs o i : ℕ) : Mat R := fun p q =>
  specG mods x gy bs o p q + (∑ j ∈ Finset.range i, dTerm mods x gy bs j o p q) +
    (∑ j ∈ Finset.range i, if j < o then cTerm mods x gy bs j o p q else 0)

end SpecG

theorem take_succ_sum (l : List ℕ) : ∀ n, n < l.length →
    (l.take (n + 1)).sum = (l.take n).sum + l.getD n 0 := by
  induction l with
  | nil => intro n h; simp at h
  | cons a t ih =>
    intro n h
    cases n with
    | zero => simp
    | succ m =>
      have hm : m < t.length := by simpa using h
      simp only [List.take_succ_cons, List.sum_cons, List.getD_cons_succ]
      rw [ih m hm]
      omega

theorem sum_take_eq_mul {sizes : List ℕ} {bs : ℕ} {k : ℕ}
    (hsz : ∀ j, j < k → sizes.getD j 0 = bs) (hk : k ≤ sizes.length) :
    (sizes.take k).sum = k * bs := by
  induction k with
  | zero => simp
  | succ n ih =>
    have hn : n < sizes.length := by omega
    rw [take_succ_sum sizes n hn, ih (fun j hj => hsz j (by omega)) (by omega),
      hsz n (by omega), Nat.succ_mul]

section LoopInv

variable {R : Type} [CommRing R]

/-- Generalisation of `directVal` to an arbitrary enumerated layer list
(for induction along the hook firing sequence). -/
def enumDirect (x gy : ℕ → ℕ → Mat R) (i o : ℕ) (l : List (ℕ × LayerMod)) : Mat R := fun a b =>
  (l.map (fun km => layerVal km.2 (x km.1 i) (x km.1 o) (gy km.1 i) (gy km.1 o) a b)).sum

theorem enumDirect_eq_directVal (mods : List LayerMod) (x gy : ℕ → ℕ → Mat R) (i o : ℕ) :
    enumDirect x gy i o (mods.enum) = fun a b => directVal mods x gy i o a b := rfl

/-- When every hooked layer is `Linear`, the inner-pass backward hooks of
`get_matrix` add exactly one block of per-layer contributions and raise
nothing. -/
theorem flatGradHooks_ok (x gy : ℕ → ℕ → Mat R) (o i eI eO bsI bsO : ℕ) :
    ∀ (l : List (ℕ × LayerMod)), (∀ p ∈ l, p.2.className = "Linear") → ∀ G : Mat R,
      flatGradHooks x gy o i eI eO bsI bsO l G =
        (blockAdd G eI eO bsI bsO (enumDirect x gy i o l), none) := by
  intro l
  induction l with
  | nil =>
    intro _ G
    have h0 : enumDirect x gy i o ([] : List (ℕ × LayerMod)) = (fun _ _ => (0 : R)) := rfl
    rw [h0, blockAdd_zero]
    rfl
  | cons km rest ih =>
    intro hl G
    rcases km with ⟨li, m⟩
    have hm : m.className = "Linear" := hl (li, m) (by simp)
    have hrest : ∀ p ∈ rest, p.2.className = "Linear" := fun p hp => hl p (by simp [hp])
    have hcons : enumDirect x gy i o ((li, m) :: rest) = fun a b =>
        layerVal m (x li i) (x li o) (gy li i) (gy li o) a b + enumDirect x gy i o rest a b := by
      funext a b
      simp [enumDirect]
    rw [hcons]
    show (if m.className = "Linear" then _ else _) = _
    rw [if_pos hm]
    rcases hhb : hasBias m with _ | _
    · simp only [hhb, Bool.false_eq_true, if_neg, ite_false]
      rw [ih hrest]
      have : (fun a b =>
          mulT (dIn m) (x li i) (x li o) a b * mulT (dOut m) (gy li i) (gy li o) a b +
            enumDirect x gy i o rest a b) = fun a b =>
          layerVal m (x li i) (x li o) (gy li i) (gy li o) a b + enumDirect x gy i o rest a b := by
        funext a b
        simp [layerVal, hhb]
      rw [blockAdd_blockAdd, this]
    · simp only [hhb, ite_true]
      rw [ih hrest, blockAdd_blockAdd, blockAdd_blockAdd]
      have : (fun a b =>
          mulT (dIn m) (x li i) (x li o) a b * mulT (dOut m) (gy li i) (gy li o) a b +
            (mulT (dOut m) (gy li i) (gy li o) a b +
              enumDirect x gy i o rest a b)) = fun a b =>
          layerVal m (x li i) (x li o) (gy li i) (gy li o) a b + enumDirect x gy i o rest a b := by
        funext a b
        simp [layerVal, hhb]
        ring
      rw [this]

theorem blockAdd_dTerm (mods : List LayerMod) (x gy : ℕ → ℕ → Mat R) (bs i o : ℕ)
    (G : Mat R) (p q : ℕ) :
    blockAdd G (i * bs) (o * bs) bs bs (fun a b => directVal mods x gy i o a b) p q =
      G p q + dTerm mods x gy bs i o p q := by
  rw [blockAdd_apply]
  unfold dTerm inBlk
  congr 1
  simp [and_assoc]

theorem copy_apply (G : Mat R) (bs i o : ℕ) (p q : ℕ) :
    blockAdd G (o * bs) (i * bs) bs bs (fun a b => G (i * bs + b) (o * bs + a)) p q =
      G p q + (if inBlk o bs p ∧ inBlk i bs q then G q p else 0) := by
  rw [blockAdd_apply]
  congr 1
  have hiff : (o * bs ≤ p ∧ p < o * bs + bs ∧ i * bs ≤ q ∧ q < i * bs + bs) ↔
      (inBlk o bs p ∧ inBlk i bs q) := by
    unfold inBlk
    tauto
  rw [if_congr hiff rfl rfl]
  split
  · rename_i h
    rcases h with ⟨⟨hp1, _⟩, ⟨hq1, _⟩⟩
    rw [Nat.add_sub_cancel' hq1, Nat.add_sub_cancel' hp1]
  · rfl

end LoopInv

theorem mem_enum_snd {α : Type} {p : ℕ × α} {l : List α} (h : p ∈ l.enum) : p.2 ∈ l := by
  rw [List.mem_enum_iff_getElem?] at h
  exact List.getElem?_mem h

section LoopInv2

variable {R : Type} [CommRing R]

theorem specG_zero_at (mods : List LayerMod) (x gy : ℕ → ℕ → Mat R) (bs : ℕ)
    (o i : ℕ) (q p : ℕ) (hq : inBlk i bs q) (hp : inBlk o bs p) :
    specG mods x gy bs o q p = 0 := by
  unfold specG roundG
  apply Finset.sum_eq_zero
  intro u hu
  have huo : u < o := Finset.mem_range.mp hu
  have h1 : (∑ j ∈ Finset.range (u + 1), dTerm mods x gy bs j u q p) = 0 := by
    apply Finset.sum_eq_zero
    intro j _
    unfold dTerm
    rw [if_neg]
    rintro ⟨_, hu2⟩
    exact absurd (inBlk_unique hu2 hp) (by omega)
  have h2 : (∑ j ∈ Finset.range u, cTerm mods x gy bs j u q p) = 0 := by
    apply Finset.sum_eq_zero
    intro j hj
    have hju : j < u := Finset.mem_range.mp hj
    unfold cTerm
    rw [if_neg]
    rintro ⟨hu2, hj2⟩
    have e1 : u = i := inBlk_unique hu2 hq
    have e2 : j = o := inBlk_unique hj2 hp
    omega
  rw [h1, h2, add_zero]

theorem midG_zero (mods : List LayerMod) (x gy : ℕ → ℕ → Mat R) (bs : ℕ)
    (o i : ℕ) (hio : i < o) (q p : ℕ) (hq : inBlk i bs q) (hp : inBlk o bs p) :
    midG mods x gy bs o i q p = 0 := by
  unfold midG
  rw [specG_zero_at mods x gy bs o i q p hq hp]
  have h1 : (∑ j ∈ Finset.range i, dTerm mods x gy bs j o q p) = 0 := by
    apply Finset.sum_eq_zero
    intro j hj
    have hji : j < i := Finset.mem_range.mp hj
    unfold dTerm
    rw [if_neg]
    rintro ⟨hj2, _⟩
    exact absurd (inBlk_unique hj2 hq) (by omega)
  have h2 : (∑ j ∈ Finset.range i, (if j < o then cTerm mods x gy bs j o q p else 0)) = 0 := by
    apply Finset.sum_eq_zero
    intro j _
    split
    · unfold cTerm
      rw [if_neg]
      rintro ⟨ho2, _⟩
      exact absurd (inBlk_unique ho2 hq) (by omega)
    · rfl
  rw [h1, h2]
  simp

/-- Under all-`Linear` layers one inner-loop iteration of `get_matrix`
performs exactly: store `x_inner`, add the direct block at
`(e_inner, e_outer)`, complete the mirrored block by a transposed copy
when `i < o`, and advance `e_inner`. -/
theorem innerStep_ok (mods : List LayerMod) (sizes : List ℕ) (x gy : ℕ → ℕ → Mat R)
    (o bsO i : ℕ) (s : EngSt R) (hlin : ∀ m ∈ mods, m.className = "Linear") :
    innerStep mods sizes x gy o bsO i s =
      ({ s with
          bufs := { s.bufs with xInner := storeAll mods x i s.bufs.xInner },
          G := (if i < o then
              blockAdd (blockAdd s.G s.eInner s.eOuter (sizes.getD i 0) bsO
                  (fun a b => directVal mods x gy i o a b))
                s.eOuter s.eInner bsO (sizes.getD i 0)
                (fun a b => (blockAdd s.G s.eInner s.eOuter (sizes.getD i 0) bsO
                  (fun a2 b2 => directVal mods x gy i o a2 b2)) (s.eInner + b) (s.eOuter + a))
            else blockAdd s.G s.eInner s.eOuter (sizes.getD i 0) bsO
              (fun a b => directVal mods x gy i o a b)),
          eInner := s.eInner + sizes.getD i 0 }, none) := by
  have hall : ∀ p ∈ mods.enum, p.2.className = "Linear" :=
    fun p hp => hlin p.2 (mem_enum_snd hp)
  have hfg := flatGradHooks_ok x gy o i s.eInner s.eOuter (sizes.getD i 0) bsO (mods.enum)
    hall s.G
  rw [enumDirect_eq_directVal] at hfg
  simp only [innerStep]
  rw [hfg]

end LoopInv2

section LoopInv3

variable {R : Type} [CommRing R]

theorem midG_succ (mods : List LayerMod) (x gy : ℕ → ℕ → Mat R) (bs o n p q : ℕ) :
    midG mods x gy bs o (n + 1) p q =
      midG mods x gy bs o n p q + dTerm mods x gy bs n o p q +
        (if n < o then cTerm mods x gy bs n o p q else 0) := by
  unfold midG
  rw [Finset.sum_range_succ, Finset.sum_range_succ]
  ring

theorem midG_full (mods : List LayerMod) (x gy : ℕ → ℕ → Mat R) (bs o p q : ℕ) :
    midG mods x gy bs o (o + 1) p q = specG mods x gy bs (o + 1) p q := by
  have h3 : (∑ j ∈ Finset.range (o + 1), if j < o then cTerm mods x gy bs j o p q else 0)
      = ∑ j ∈ Finset.range o, cTerm mods x gy bs j o p q := by
    rw [Finset.sum_range_succ]
    have h0 : (if o < o then cTerm mods x gy bs o o p q else 0) = 0 := by simp
    rw [h0, add_zero]
    apply Finset.sum_congr rfl
    intro j hj
    exact if_pos (Finset.mem_range.mp hj)
  have h4 : specG mods x gy bs (o + 1) p q =
      specG mods x gy bs o p q + roundG mods x gy bs o p q := by
    unfold specG
    rw [Finset.sum_range_succ]
  unfold midG
  rw [h3, h4]
  unfold roundG
  ring

/-- Inner-loop invariant of `get_matrix` with equal batch sizes and
all-`Linear` layers: after inner iterations `0 .. i-1` of outer round `o`
the accumulator holds `midG`, `e_inner` is `i * bs`, and no exception has
been raised. -/
theorem innerLoop_inv (mods : List LayerMod) (sizes : List ℕ)
    (x gy : ℕ → ℕ → Mat R) (bs : ℕ)
    (hlin : ∀ m ∈ mods, m.className = "Linear")
    (hsz : ∀ j, j < sizes.length → sizes.getD j 0 = bs)
    (o : ℕ) (ho : o < sizes.length) (s : EngSt R)
    (hG : ∀ p q, s.G p q = specG mods x gy bs o p q)
    (hEO : s.eOuter = o * bs) (hEI : s.eInner = 0) :
    ∀ i, i ≤ o + 1 →
      ∃ s1, foldSteps (innerStep mods sizes x gy o bs) (List.range i) s = (s1, none) ∧
        (∀ p q, s1.G p q = midG mods x gy bs o i p q) ∧
        s1.eOuter = o * bs ∧ s1.eInner = i * bs := by
  intro i
  induction i with
  | zero =>
    intro _
    refine ⟨s, rfl, ?_, hEO, by simpa using hEI⟩
    intro p q
    rw [hG]
    unfold midG
    simp
  | succ n ih =>
    intro hn1
    obtain ⟨s1, hfold, hG1, hEO1, hEI1⟩ := ih (by omega)
    have hno : n ≤ o := by omega
    have hnB : n < sizes.length := by omega
    have hbsn : sizes.getD n 0 = bs := hsz n hnB
    rw [List.range_succ, foldSteps_append_ok _ _ _ _ _ hfold]
    simp only [foldSteps]
    rw [innerStep_ok mods sizes x gy o bs n s1 hlin]
    simp only [hbsn, hEO1, hEI1]
    refine ⟨_, rfl, ?_, by simp [hEO1], by simp [Nat.succ_mul]⟩
    intro p q
    simp only []
    rw [midG_succ]
    by_cases hno2 : n < o
    · rw [if_pos hno2, if_pos hno2]
      rw [copy_apply, blockAdd_dTerm, blockAdd_dTerm, hG1 p q]
      have hcopy : (if inBlk o bs p ∧ inBlk n bs q then
          s1.G q p + dTerm mods x gy bs n o q p else 0) = cTerm mods x gy bs n o p q := by
        unfold cTerm
        split
        · rename_i h
          rw [hG1 q p, midG_zero mods x gy bs o n hno2 q p h.2 h.1, zero_add]
          unfold dTerm
          rw [if_pos ⟨h.2, h.1⟩]
        · rfl
      rw [hcopy]
    · rw [if_neg hno2, if_neg hno2, blockAdd_dTerm, hG1 p q, add_zero]

/-- Outer-loop invariant of `get_matrix` with equal batch sizes and
all-`Linear` layers: after `o` outer rounds the accumulator holds
`specG _ _ _ bs o` and `e_outer` is `o * bs`. -/
theorem outerLoop_inv (mods : List LayerMod) (sizes : List ℕ)
    (x gy : ℕ → ℕ → Mat R) (bs : ℕ) (b0 : Buffers R)
    (hlin : ∀ m ∈ mods, m.className = "Linear")
    (hsz : ∀ j, j < sizes.length → sizes.getD j 0 = bs) :
    ∀ o, o ≤ sizes.length →
      ∃ s1, foldSteps (outerStep mods sizes x gy sizes.length) (List.range o) (initSt b0) =
          (s1, none) ∧
        (∀ p q, s1.G p q = specG mods x gy bs o p q) ∧ s1.eOuter = o * bs := by
  intro o
  induction o with
  | zero =>
    intro _
    refine ⟨initSt b0, rfl, ?_, by simp [initSt]⟩
    intro p q
    unfold initSt specG
    simp
  | succ n ih =>
    intro hn
    obtain ⟨s1, hfold, hG1, hEO1⟩ := ih (by omega)
    have hnB : n < sizes.length := by omega
    rw [List.range_succ, foldSteps_append_ok _ _ _ _ _ hfold]
    simp only [foldSteps, outerStep]
    rw [hsz n hnB]
    obtain ⟨s2, hinner, hG2, hEO2, hEI2⟩ :=
      innerLoop_inv mods sizes x gy bs hlin hsz n hnB
        { s1 with
          bufs := { s1.bufs with
            xOuter := storeAll mods x n s1.bufs.xOuter,
            gyOuter := storeAll mods gy n s1.bufs.gyOuter },
          eInner := 0 }
        (by intro p q; exact hG1 p q) (by simp [hEO1]) rfl (n + 1) (Nat.le_refl _)
    rw [hinner]
    have hmin : min (n + 1) (sizes.length - 1) < sizes.length := by omega
    refine ⟨_, rfl, ?_, ?_⟩
    · intro p q
      simp only []
      rw [hG2 p q, midG_full]
    · simp only []
      rw [hEO2, hsz _ hmin, Nat.succ_mul]

section GramSpec

variable {R : Type} [CommRing R]

/-- With equal batch sizes and all-`Linear` retained layers,
`get_matrix` returns normally and its result is `specG`. -/
theorem getMatrixQ_spec (mods : List LayerMod) (sizes : List ℕ) (x gy : ℕ → ℕ → Mat R)
    (bs : ℕ) (b0 : Buffers R)
    (hlin : ∀ m ∈ mods, m.className = "Linear")
    (hsz : ∀ j, j < sizes.length → sizes.getD j 0 = bs) :
    isOk (getMatrixQ mods sizes x gy b0) = true ∧
    ∀ p q, gramOf (getMatrixQ mods sizes x gy b0) p q = specG mods x gy bs sizes.length p q := by
  obtain ⟨s1, hfold, hG, _⟩ :=
    outerLoop_inv mods sizes x gy bs b0 hlin hsz sizes.length (Nat.le_refl _)
  simp only [getMatrixQ]
  rw [hfold]
  exact ⟨rfl, hG⟩

theorem specG_block (mods : List LayerMod) (x gy : ℕ → ℕ → Mat R) (bs B i o a b : ℕ)
    (hio : i ≤ o) (ho : o < B) (ha : a < bs) (hb : b < bs) :
    specG mods x gy bs B (i * bs + a) (o * bs + b) = directVal mods x gy i o a b := by
  have hpa : inBlk i bs (i * bs + a) := inBlk_mk i bs a ha
  have hqb : inBlk o bs (o * bs + b) := inBlk_mk o bs b hb
  have hmain : (∑ u ∈ Finset.range B, roundG mods x gy bs u (i * bs + a) (o * bs + b))
      = roundG mods x gy bs o (i * bs + a) (o * bs + b) := by
    apply Finset.sum_eq_single
    · intro u _ huo
      unfold roundG
      have h1 : (∑ j ∈ Finset.range (u + 1), dTerm mods x gy bs j u (i * bs + a) (o * bs + b))
          = 0 := by
        apply Finset.sum_eq_zero
        intro j _
        unfold dTerm
        rw [if_neg]
        rintro ⟨_, hu2⟩
        exact huo (inBlk_unique hu2 hqb)
      have h2 : (∑ j ∈ Finset.range u, cTerm mods x gy bs j u (i * bs + a) (o * bs + b))
          = 0 := by
        apply Finset.sum_eq_zero
        intro j hj
        have hju : j < u := Finset.mem_range.mp hj
        unfold cTerm
        rw [if_neg]
        rintro ⟨hu2, hj2⟩
        have e1 : u = i := inBlk_unique hu2 hpa
        have e2 : j = o := inBlk_unique hj2 hqb
        omega
      rw [h1, h2, add_zero]
    · intro habs
      exact absurd (Finset.mem_range.mpr ho) habs
  unfold specG
  rw [hmain]
  unfold roundG
  have hd : (∑ j ∈ Finset.range (o + 1), dTerm mods x gy bs j o (i * bs + a) (o * bs + b))
      = directVal mods x gy i o a b := by
    have hsingle : (∑ j ∈ Finset.range (o + 1), dTerm mods x gy bs j o (i * bs + a) (o * bs + b))
        = dTerm mods x gy bs i o (i * bs + a) (o * bs + b) := by
      apply Finset.sum_eq_single
      · intro j _ hji
        unfold dTerm
        rw [if_neg]
        rintro ⟨hj2, _⟩
        exact hji (inBlk_unique hj2 hpa)
      · intro habs
        exact absurd (Finset.mem_range.mpr (by omega)) habs
    rw [hsingle]
    unfold dTerm
    rw [if_pos ⟨hpa, hqb⟩, Nat.add_sub_cancel_left, Nat.add_sub_cancel_left]
  have hc : (∑ j ∈ Finset.range o, cTerm mods x gy bs j o (i * bs + a) (o * bs + b)) = 0 := by
    apply Finset.sum_eq_zero
    intro j hj
    have hjo : j < o := Finset.mem_range.mp hj
    unfold cTerm
    rw [if_neg]
    rintro ⟨_, hj2⟩
    have e2 : j = o := inBlk_unique hj2 hqb
    omega
  rw [hd, hc, add_zero]

theorem specG_blockT (mods : List LayerMod) (x gy : ℕ → ℕ → Mat R) (bs B i o a b : ℕ)
    (hio : i < o) (ho : o < B) (ha : a < bs) (hb : b < bs) :
    specG mods x gy bs B (o * bs + b) (i * bs + a) = directVal mods x gy i o a b := by
  have hpa : inBlk i bs (i * bs + a) := inBlk_mk i bs a ha
  have hqb : inBlk o bs (o * bs + b) := inBlk_mk o bs b hb
  have hmain : (∑ u ∈ Finset.range B, roundG mods x gy bs u (o * bs + b) (i * bs + a))
      = roundG mods x gy bs o (o * bs + b) (i * bs + a) := by
    apply Finset.sum_eq_single
    · intro u _ huo
      unfold roundG
      have h1 : (∑ j ∈ Finset.range (u + 1), dTerm mods x gy bs j u (o * bs + b) (i * bs + a))
          = 0 := by
        apply Finset.sum_eq_zero
        intro j hj
        have hju : j < u + 1 := Finset.mem_range.mp hj
        unfold dTerm
        rw [if_neg]
        rintro ⟨hj2, hu2⟩
        have e1 : j = o := inBlk_unique hj2 hqb
        have e2 : u = i := inBlk_unique hu2 hpa
        omega
      have h2 : (∑ j ∈ Finset.range u, cTerm mods x gy bs j u (o * bs + b) (i * bs + a))
          = 0 := by
        apply Finset.sum_eq_zero
        intro j _
        unfold cTerm
        rw [if_neg]
        rintro ⟨hu2, _⟩
        exact huo (inBlk_unique hu2 hqb)
      rw [h1, h2, add_zero]
    · intro habs
      exact absurd (Finset.mem_range.mpr ho) habs
  unfold specG
  rw [hmain]
  unfold roundG
  have hd : (∑ j ∈ Finset.range (o + 1), dTerm mods x gy bs j o (o * bs + b) (i * bs + a))
      = 0 := by
    apply Finset.sum_eq_zero
    intro j _
    unfold dTerm
    rw [if_neg]
    rintro ⟨_, ho2⟩
    have e1 : o = i := inBlk_unique ho2 hpa
    omega
  have hc : (∑ j ∈ Finset.range o, cTerm mods x gy bs j o (o * bs + b) (i * bs + a))
      = directVal mods x gy i o a b := by
    have hsingle : (∑ j ∈ Finset.range o, cTerm mods x gy bs j o (o * bs + b) (i * bs + a))
        = cTerm mods x gy bs i o (o * bs + b) (i * bs + a) := by
      apply Finset.sum_eq_single
      · intro j _ hji
        unfold cTerm
        rw [if_neg]
        rintro ⟨_, hj2⟩
        exact hji (inBlk_unique hj2 hpa)
      · intro habs
        exact absurd (Finset.mem_range.mpr hio) habs
    rw [hsingle]
    unfold cTerm
    rw [if_pos ⟨hqb, hpa⟩, Nat.add_sub_cancel_left, Nat.add_sub_cancel_left]
  rw [hd, hc, zero_add]

end GramSpec

theorem gmStateAfter_eOuter {R : Type} [CommRing R] (mods : List LayerMod) (sizes : List ℕ)
    (x gy : ℕ → ℕ → Mat R) (bs : ℕ) (b0 : Buffers R)
    (hlin : ∀ m ∈ mods, m.className = "Linear")
    (hsz : ∀ j, j < sizes.length → sizes.getD j 0 = bs)
    (o : ℕ) (ho : o ≤ sizes.length) :
    (gmStateAfter mods sizes x gy b0 o).eOuter = (sizes.take o).sum := by
  obtain ⟨s1, hfold, _, hEO⟩ := outerLoop_inv mods sizes x gy bs b0 hlin hsz o ho
  unfold gmStateAfter
  rw [hfold, sum_take_eq_mul (fun j hj => hsz j (by omega)) ho]
  exact hEO

/-- C9 (counterexample): with batch sizes [2, 1] — equal sizes except a
smaller final batch, as the claim's precondition allows — the offset
`e_outer` at the start of outer iteration 1 is 1, not the 2 examples
contained in batch 0: the offset is advanced by the size of the batch the
exhausted inner loop last fetched, which here is the smaller final batch. -/
theorem claim9_counterexample :
    ([2, 1] : List ℕ).getD 0 0 = 2 ∧
    ([2, 1] : List ℕ).getD 1 0 ≤ 2 ∧
    ((([2, 1] : List ℕ).take 1).sum = 2) ∧
    (gmStateAfter [linMod11] [2, 1] onesZ onesZ emptyBuffers 1).eOuter = 1 := by
  decide

/-- C9 (amended): when every batch produced by the loader has the same
size `bs` (and every retained layer is `Linear`, so the query reaches each
iteration), the loop invariant holds: at the start of each outer iteration
`o` of `get_matrix`, `e_outer` equals the total number of examples in
batches `0 .. o-1`. -/
theorem claim9_theorem {R : Type} [CommRing R] (mods : List LayerMod) (sizes : List ℕ)
    (x gy : ℕ → ℕ → Mat R) (bs : ℕ) (b0 : Buffers R)
    (hlin : ∀ m ∈ mods, m.className = "Linear")
    (hsz : ∀ j, j < sizes.length → sizes.getD j 0 = bs)
    (o : ℕ) (ho : o ≤ sizes.length) :
    (gmStateAfter mods sizes x gy b0 o).eOuter = (sizes.take o).sum :=
  gmStateAfter_eOuter mods sizes x gy bs b0 hlin hsz o ho

/-- C9 (witness): the amended invariant at a concrete instance — one
`Linear` layer, two batches of size 1 each, all-ones captures. -/
theorem claim9_witness :
    (gmStateAfter [linMod11] [1, 1] onesZ onesZ emptyBuffers 2).eOuter =
      (([1, 1] : List ℕ).take 2).sum :=
  claim9_theorem [linMod11] [1, 1] onesZ onesZ 1 emptyBuffers (by decide) (by decide)
    2 (by decide)

/-- C1 (counterexample): with batch sizes [2, 1] the ordered pair
(outer 1, inner 1) accumulates nowhere near the block of batch 1's
examples: batch 1 occupies row/column 2 of the 3×3 Gram matrix, the
per-layer value is 1, yet the returned matrix holds 0 there (the buggy
`e_outer` offset sent the accumulation to column 1). -/
theorem claim1_counterexample :
    isOk (getMatrixQ [linMod11] [2, 1] onesZ onesZ emptyBuffers) = true ∧
    directVal [linMod11] onesZ onesZ 1 1 0 0 = 1 ∧
    gramOf (getMatrixQ [linMod11] [2, 1] onesZ onesZ emptyBuffers)
        ((([2, 1] : List ℕ).take 1).sum + 0) ((([2, 1] : List ℕ).take 1).sum + 0) = 0 := by
  decide

/-- C1 (amended): when every loader batch has the same size `bs` and every
retained layer is `Linear`, `get_matrix` succeeds and, for every ordered
batch pair (inner `i`, outer `o`) with `i ≤ o`, the entry of the returned
Gram matrix at row `a` of the inner batch's examples and column `b` of the
outer batch's examples equals the sum over retained layers of
`(X_inner X_outer^T) ⊙ (GY_inner GY_outer^T)` plus `GY_inner GY_outer^T`
for layers with a bias (`directVal`). -/
theorem claim1_theorem {R : Type} [CommRing R] (mods : List LayerMod) (sizes : List ℕ)
    (x gy : ℕ → ℕ → Mat R) (bs : ℕ) (b0 : Buffers R)
    (hlin : ∀ m ∈ mods, m.className = "Linear")
    (hsz : ∀ j, j < sizes.length → sizes.getD j 0 = bs)
    (i o a b : ℕ) (hio : i ≤ o) (ho : o < sizes.length) (ha : a < bs) (hb : b < bs) :
    isOk (getMatrixQ mods sizes x gy b0) = true ∧
    gramOf (getMatrixQ mods sizes x gy b0) ((sizes.take i).sum + a) ((sizes.take o).sum + b) =
      directVal mods x gy i o a b := by
  obtain ⟨hok, hG⟩ := getMatrixQ_spec mods sizes x gy bs b0 hlin hsz
  refine ⟨hok, ?_⟩
  rw [sum_take_eq_mul (fun j hj => hsz j (by omega)) (by omega), sum_take_eq_mul (fun j hj => hsz j (by omega)) (by omega), hG]
  exact specG_block mods x gy bs sizes.length i o a b hio ho ha hb

/-- C1 (witness): the amended block formula at a concrete instance — one
`Linear` layer with bias, two batches of size 1, all-ones captures, pair
(inner 0, outer 1). -/
theorem claim1_witness :
    isOk (getMatrixQ [linModB] [1, 1] onesZ onesZ emptyBuffers) = true ∧
    gramOf (getMatrixQ [linModB] [1, 1] onesZ onesZ emptyBuffers)
        ((([1, 1] : List ℕ).take 0).sum + 0) ((([1, 1] : List ℕ).take 1).sum + 0) =
      directVal [linModB] onesZ onesZ 0 1 0 0 :=
  claim1_theorem [linModB] [1, 1] onesZ onesZ 1 emptyBuffers (by decide) (by decide)
    0 1 0 0 (by decide) (by decide) (by decide) (by decide)

/-- C2 (counterexample): with batch sizes [2, 1] the returned matrix is
not block-symmetric: for the pair (inner batch 0, outer batch 1), the
entry of block `G[outer rows, inner cols]` at row 2 (batch 1's example),
column 1 (batch 0's second example) is 1, while the corresponding entry of
the transposed block `G[inner rows, outer cols]` — row 1, column 2 — is 0. -/
theorem claim2_counterexample :
    isOk (getMatrixQ [linMod11] [2, 1] onesZ onesZ emptyBuffers) = true ∧
    gramOf (getMatrixQ [linMod11] [2, 1] onesZ onesZ emptyBuffers) 2 1 = 1 ∧
    gramOf (getMatrixQ [linMod11] [2, 1] onesZ onesZ emptyBuffers) 1 2 = 0 := by
  decide

/-- C2 (amended): when every loader batch has the same size `bs` and every
retained layer is `Linear`, the returned Gram matrix is exactly symmetric
block-wise: for `i < o` the block at (outer rows, inner cols) — filled
only by the transposed copy — equals the transpose of the directly
accumulated block at (inner rows, outer cols), and each diagonal block
holds exactly the direct accumulation value (it is never written by a
copy). -/
theorem claim2_theorem {R : Type} [CommRing R] (mods : List LayerMod) (sizes : List ℕ)
    (x gy : ℕ → ℕ → Mat R) (bs : ℕ) (b0 : Buffers R)
    (hlin : ∀ m ∈ mods, m.className = "Linear")
    (hsz : ∀ j, j < sizes.length → sizes.getD j 0 = bs)
    (i o a b : ℕ) (hio : i < o) (ho : o < sizes.length) (ha : a < bs) (hb : b < bs) :
    gramOf (getMatrixQ mods sizes x gy b0) ((sizes.take o).sum + b) ((sizes.take i).sum + a) =
      gramOf (getMatrixQ mods sizes x gy b0) ((sizes.take i).sum + a) ((sizes.take o).sum + b) ∧
    gramOf (getMatrixQ mods sizes x gy b0) ((sizes.take i).sum + a) ((sizes.take i).sum + b) =
      directVal mods x gy i i a b := by
  obtain ⟨_, hG⟩ := getMatrixQ_spec mods sizes x gy bs b0 hlin hsz
  constructor
  · rw [sum_take_eq_mul (fun j hj => hsz j (by omega)) (by omega), sum_take_eq_mul (fun j hj => hsz j (by omega)) (by omega), hG, hG]
    rw [specG_blockT mods x gy bs sizes.length i o a b hio ho ha hb]
    rw [specG_block mods x gy bs sizes.length i o a b (by omega) ho ha hb]
  · rw [sum_take_eq_mul (fun j hj => hsz j (by omega)) (by omega), hG]
    exact specG_block mods x gy bs sizes.length i i a b (Nat.le_refl i) (by omega) ha hb

/-- C2 (witness): the amended symmetry at a concrete instance — one
`Linear` layer with bias, two batches of size 1, all-ones captures, pair
(inner 0, outer 1). -/
theorem claim2_witness :
    gramOf (getMatrixQ [linModB] [1, 1] onesZ onesZ emptyBuffers)
        ((([1, 1] : List ℕ).take 1).sum + 0) ((([1, 1] : List ℕ).take 0).sum + 0) =
      gramOf (getMatrixQ [linModB] [1, 1] onesZ onesZ emptyBuffers)
        ((([1, 1] : List ℕ).take 0).sum + 0) ((([1, 1] : List ℕ).take 1).sum + 0) ∧
    gramOf (getMatrixQ [linModB] [1, 1] onesZ onesZ emptyBuffers)
        ((([1, 1] : List ℕ).take 0).sum + 0) ((([1, 1] : List ℕ).take 0).sum + 0) =
      directVal [linModB] onesZ onesZ 0 0 0 0 :=
  claim2_theorem [linModB] [1, 1] onesZ onesZ 1 emptyBuffers (by decide) (by decide)
    0 1 0 0 (by decide) (by decide) (by decide) (by decide)

/-- Whether `L2Loss.__init__` (via `_get_individual_modules`) succeeds. -/
def constructionOk (model : List LayerMod) : Bool :=
  match getIndividualModules model with
  | Except.ok _ => true
  | Except.error _ => false

/-- The identity-subset assert of `_get_individual_modules` can never
fail: every retained module's parameter is a parameter of the model it was
taken from. -/
theorem subsetCheck_true (model : List LayerMod) : subsetCheck model = true := by
  unfold subsetCheck
  rw [List.all_eq_true]
  intro t ht
  rw [decide_eq_true_iff]
  unfold paramTags at ht ⊢
  rw [List.mem_flatten] at ht ⊢
  obtain ⟨blk, hblk, htblk⟩ := ht
  rw [List.mem_map] at hblk
  obtain ⟨pr, hpr, hpreq⟩ := hblk
  refine ⟨blk, ?_, htblk⟩
  rw [List.mem_map]
  exact ⟨pr, List.mem_of_mem_filter hpr, hpreq⟩

/-- C5: the instrumentation hooks are NOT deregistered on the error path.
On the model `[Conv2d]` with one batch, `get_matrix` raises
`NotImplementedError` and its 2 registered hook handles (one forward
pre-hook and one backward hook for the single retained layer) are still
registered when the query aborts, while the successful query on a
`Linear`-only model removes them all. -/
theorem claim5_theorem :
    errOf (getMatrixQ [convMod] [1] onesZ onesZ emptyBuffers) = some QErr.notImpl ∧
    (getMatrixQ [convMod] [1] onesZ onesZ emptyBuffers).activeHooks = 2 ∧
    errOf (implicitMNormQ [convMod] [1] onesZ onesZ 1 1 [1] emptyBuffers) =
      some QErr.notImpl ∧
    (implicitMNormQ [convMod] [1] onesZ onesZ 1 1 [1] emptyBuffers).activeHooks = 2 ∧
    (getMatrixQ [linMod11] [1] onesZ onesZ emptyBuffers).activeHooks = 0 := by
  decide

/-- C6: the transient buffers are NOT all released at the end of a
successful `get_matrix` query: `x_inner` and `x_outer` are reset but
`gy_outer` still holds the last outer batch's captured gradient (and
`release_buffers`, which would clear all four, is never called by any
query). -/
theorem claim6_theorem :
    isOk (getMatrixQ [linMod11] [1] onesZ onesZ emptyBuffers) = true ∧
    ((getMatrixQ [linMod11] [1] onesZ onesZ emptyBuffers).bufs.xInner).isEmpty = true ∧
    ((getMatrixQ [linMod11] [1] onesZ onesZ emptyBuffers).bufs.xOuter).isEmpty = true ∧
    ((getMatrixQ [linMod11] [1] onesZ onesZ emptyBuffers).bufs.gyOuter).isEmpty = false := by
  decide

/-- C4 (counterexample): a model whose only trainable parameter belongs to
a `Conv2d` layer is accepted at construction, but both queries raise
`NotImplementedError` at the accumulation step instead of running to
completion. -/
theorem claim4_counterexample :
    constructionOk [convMod] = true ∧
    errOf (getMatrixQ [convMod] [1] onesZ onesZ emptyBuffers) = some QErr.notImpl ∧
    errOf (implicitMNormQ [convMod] [1] onesZ onesZ 1 1 [1] emptyBuffers) =
      some QErr.notImpl := by
  decide

section ErrProp

variable {R : Type} [CommRing R]

theorem foldSteps_first_err (f : ℕ → EngSt R → EngSt R × Option QErr) (a : ℕ) (l : List ℕ)
    (s : EngSt R) (e : QErr) (h : (f a s).2 = some e) :
    (foldSteps f (a :: l) s).2 = some e := by
  simp only [foldSteps]
  rcases hf : f a s with ⟨s1, e1⟩
  rw [hf] at h
  simp only [] at h
  rw [h]

/-- A retained non-`Linear` layer reaching `_hook_compute_flat_grad` on an
inner pass raises `NotImplementedError`. -/
theorem flatGradHooks_err (x gy : ℕ → ℕ → Mat R) (o i eI eO bsI bsO : ℕ) :
    ∀ (l : List (ℕ × LayerMod)), (∃ p ∈ l, ¬(p.2.className = "Linear")) → ∀ G : Mat R,
      (flatGradHooks x gy o i eI eO bsI bsO l G).2 = some QErr.notImpl := by
  intro l
  induction l with
  | nil =>
    rintro ⟨p, hp, _⟩
    simp at hp
  | cons km rest ih =>
    rintro ⟨p, hp, hpc⟩ G
    rcases km with ⟨li, m⟩
    show ((if m.className = "Linear" then _ else _ : Mat R × Option QErr)).2 = _
    by_cases hm : m.className = "Linear"
    · rw [if_pos hm]
      have hrest : ∃ p ∈ rest, ¬(p.2.className = "Linear") := by
        rcases List.mem_cons.mp hp with heq | hr
        · exfalso
          rw [heq] at hpc
          exact hpc hm
        · exact ⟨p, hr, hpc⟩
      exact ih hrest _
    · rw [if_neg hm]

theorem innerStep_err (mods : List LayerMod) (sizes : List ℕ) (x gy : ℕ → ℕ → Mat R)
    (o bsO i : ℕ) (s : EngSt R)
    (hbadE : ∃ p ∈ mods.enum, ¬(p.2.className = "Linear")) :
    (innerStep mods sizes x gy o bsO i s).2 = some QErr.notImpl := by
  simp only [innerStep]
  rcases hfg : flatGradHooks x gy o i s.eInner s.eOuter (sizes.getD i 0) bsO (mods.enum) s.G
    with ⟨G1, e1⟩
  have h2 := flatGradHooks_err x gy o i s.eInner s.eOuter (sizes.getD i 0) bsO (mods.enum)
    hbadE s.G
  rw [hfg] at h2
  have h3 : e1 = some QErr.notImpl := h2
  rw [h3]

theorem outerStep_err (mods : List LayerMod) (sizes : List ℕ) (x gy : ℕ → ℕ → Mat R)
    (B : ℕ) (s : EngSt R)
    (hbadE : ∃ p ∈ mods.enum, ¬(p.2.className = "Linear")) :
    (outerStep mods sizes x gy B 0 s).2 = some QErr.notImpl := by
  have h1 : ∀ s1 : EngSt R,
      (foldSteps (innerStep mods sizes x gy 0 (sizes.getD 0 0)) (List.range (0 + 1)) s1).2 =
        some QErr.notImpl := by
    intro s1
    rw [show List.range (0 + 1) = [0] from rfl]
    exact foldSteps_first_err _ 0 [] s1 QErr.notImpl
      (innerStep_err mods sizes x gy 0 (sizes.getD 0 0) 0 s1 hbadE)
  simp only [outerStep]
  split
  · rename_i s2 heq
    have h2 := congrArg Prod.snd heq
    rw [h1 _] at h2
    exact absurd h2.symm (by simp)
  · rename_i s2 e heq
    have h2 := congrArg Prod.snd heq
    rw [h1 _] at h2
    have h3 : some QErr.notImpl = some e := h2
    have h4 : e = QErr.notImpl := (Option.some_inj.mp h3).symm
    rw [h4]

/-- C8 for `get_matrix` in general form: a retained non-`Linear` layer and
a nonempty loader make the whole query raise `NotImplementedError` with
the hooks still registered. -/
theorem getMatrixQ_err (mods : List LayerMod) (sizes : List ℕ) (x gy : ℕ → ℕ → Mat R)
    (b0 : Buffers R) (hN : 0 < sizes.length)
    (hbad : ∃ m ∈ mods, ¬(m.className = "Linear")) :
    errOf (getMatrixQ mods sizes x gy b0) = some QErr.notImpl ∧
    (getMatrixQ mods sizes x gy b0).activeHooks = 2 * mods.length := by
  have hbadE : ∃ p ∈ mods.enum, ¬(p.2.className = "Linear") := by
    obtain ⟨m, hm, hmc⟩ := hbad
    obtain ⟨idx, hidx⟩ := List.mem_iff_getElem?.mp hm
    exact ⟨(idx, m), List.mem_enum_iff_getElem?.mpr hidx, hmc⟩
  obtain ⟨B1, hB⟩ : ∃ B1, sizes.length = B1 + 1 := ⟨sizes.length - 1, by omega⟩
  have hfold : (foldSteps (outerStep mods sizes x gy sizes.length)
      (List.range sizes.length) (initSt b0)).2 = some QErr.notImpl := by
    rw [hB, List.range_succ_eq_map]
    exact foldSteps_first_err _ 0 _ (initSt b0) QErr.notImpl
      (outerStep_err mods sizes x gy (B1 + 1) (initSt b0) hbadE)
  simp only [getMatrixQ]
  split
  · rename_i s2 heq
    rw [heq] at hfold
    exact absurd hfold (by simp)
  · rename_i s2 e heq
    rw [heq] at hfold
    have h3 : some e = some QErr.notImpl := hfold
    obtain rfl : e = QErr.notImpl := Option.some_inj.mp h3
    exact ⟨rfl, rfl⟩

end ErrProp

section ErrProp2

variable {R : Type} [CommRing R]

/-- A retained non-`Linear` layer reaching `_hook_compute_m_norm` makes
the hook chain raise (either its own `NotImplementedError` or an earlier
shape mismatch). -/
theorem mNormHooks_err (mods : List LayerMod) (x gy : ℕ → ℕ → Mat R) (b : ℕ)
    (c : List R) (nb : ℕ) :
    ∀ (l : List (ℕ × LayerMod)), (∃ p ∈ l, ¬(p.2.className = "Linear")) → ∀ w : ℕ → R,
      ∃ e, (mNormHooks mods x gy b c nb l w).2 = some e := by
  intro l
  induction l with
  | nil =>
    rintro ⟨p, hp, _⟩
    simp at hp
  | cons km rest ih =>
    rintro ⟨p, hp, hpc⟩ w
    rcases km with ⟨li, m⟩
    show ∃ e, ((if m.className = "Linear" then _ else _ : (ℕ → R) × Option QErr)).2 = some e
    by_cases hm : m.className = "Linear"
    · rw [if_pos hm]
      by_cases hc : c.length = nb
      · rw [if_pos hc]
        have hrest : ∃ p ∈ rest, ¬(p.2.className = "Linear") := by
          rcases List.mem_cons.mp hp with heq | hr
          · exfalso
            rw [heq] at hpc
            exact hpc hm
          · exact ⟨p, hr, hpc⟩
        exact ih hrest _
      · rw [if_neg hc]
        exact ⟨QErr.shapeMismatch, rfl⟩
    · rw [if_neg hm]
      exact ⟨QErr.notImpl, rfl⟩

theorem mNormStep_err (mods : List LayerMod) (sizes : List ℕ) (x gy : ℕ → ℕ → Mat R)
    (bs : ℕ) (v : List R) (b : ℕ) (s : EngSt R)
    (hbadE : ∃ p ∈ mods.enum, ¬(p.2.className = "Linear")) :
    ∃ e, (mNormStep mods sizes x gy bs v b s).2 = some e := by
  simp only [mNormStep]
  obtain ⟨e, he⟩ := mNormHooks_err mods x gy b (batchSlice v bs b) (sizes.getD b 0)
    (mods.enum) hbadE s.cTv
  rcases hmh : mNormHooks mods x gy b (batchSlice v bs b) (sizes.getD b 0) (mods.enum) s.cTv
    with ⟨w1, e1⟩
  rw [hmh] at he
  have h3 : e1 = some e := he
  rw [h3]
  exact ⟨e, rfl⟩

/-- C8 for `implicit_m_norm` in general form. -/
theorem implicitMNormQ_err (mods : List LayerMod) (sizes : List ℕ) (x gy : ℕ → ℕ → Mat R)
    (bs nParams : ℕ) (v : List R) (b0 : Buffers R) (hN : 0 < sizes.length)
    (hbad : ∃ m ∈ mods, ¬(m.className = "Linear")) :
    (∃ e, errOf (implicitMNormQ mods sizes x gy bs nParams v b0) = some e) ∧
    (implicitMNormQ mods sizes x gy bs nParams v b0).activeHooks = 2 * mods.length := by
  have hbadE : ∃ p ∈ mods.enum, ¬(p.2.className = "Linear") := by
    obtain ⟨m, hm, hmc⟩ := hbad
    obtain ⟨idx, hidx⟩ := List.mem_iff_getElem?.mp hm
    exact ⟨(idx, m), List.mem_enum_iff_getElem?.mpr hidx, hmc⟩
  obtain ⟨B1, hB⟩ : ∃ B1, sizes.length = B1 + 1 := ⟨sizes.length - 1, by omega⟩
  obtain ⟨e0, he0⟩ := mNormStep_err mods sizes x gy bs v 0 (initSt b0) hbadE
  have hfold : (foldSteps (mNormStep mods sizes x gy bs v)
      (List.range sizes.length) (initSt b0)).2 = some e0 := by
    rw [hB, List.range_succ_eq_map]
    exact foldSteps_first_err _ 0 _ (initSt b0) e0 he0
  simp only [implicitMNormQ]
  split
  · rename_i s2 heq
    rw [heq] at hfold
    exact absurd hfold (by simp)
  · rename_i s2 e heq
    rw [heq] at hfold
    have h3 : some e = some e0 := hfold
    exact ⟨⟨e, rfl⟩, rfl⟩

end ErrProp2

/-- C8: when a retained layer whose class has no accumulation formula
(any class other than `Linear`) reaches the accumulation step — a
nonempty loader guarantees the backward hooks fire — both `get_matrix`
and `implicit_m_norm` raise a fatal error and halt instead of silently
skipping the layer: the query returns no value. -/
theorem claim8_theorem {R : Type} [CommRing R] (mods : List LayerMod) (sizes : List ℕ)
    (x gy : ℕ → ℕ → Mat R) (bs nParams : ℕ) (v : List R) (b0 b1 : Buffers R)
    (hN : 0 < sizes.length)
    (hbad : ∃ m ∈ mods, ¬(m.className = "Linear")) :
    errOf (getMatrixQ mods sizes x gy b0) = some QErr.notImpl ∧
    (∃ e, errOf (implicitMNormQ mods sizes x gy bs nParams v b1) = some e) :=
  ⟨(getMatrixQ_err mods sizes x gy b0 hN hbad).1,
   (implicitMNormQ_err mods sizes x gy bs nParams v b1 hN hbad).1⟩

/-- C8 (witness): both queries raise on a model with one retained `Conv2d`
layer and one batch. -/
theorem claim8_witness :
    errOf (getMatrixQ [convMod] [1] onesZ onesZ emptyBuffers) = some QErr.notImpl ∧
    (∃ e, errOf (implicitMNormQ [convMod] [1] onesZ onesZ 1 1 [1] emptyBuffers) = some e) :=
  claim8_theorem [convMod] [1] onesZ onesZ 1 1 [1] emptyBuffers emptyBuffers
    (by decide) ⟨convMod, by decide, by decide⟩

/-- For a model whose modules all have a weight and fully-trainable
parameters, the per-module shape list and the model's trainable-parameter
shape list coincide. -/
theorem shapes_eq_params (model : List LayerMod)
    (hw : ∀ m ∈ model, m.weight.isSome = true)
    (hrg : ∀ m ∈ model, m.wReqGrad = true ∧ m.bReqGrad = true) :
    ((model.map (fun m => wShape m :: (m.bias.map id).toList)).flatten) =
      ((((model.map modParams).flatten).filter (fun p => p.2)).map (fun p => p.1)) := by
  induction model with
  | nil => rfl
  | cons m rest ih =>
    simp only [List.map_cons, List.flatten_cons, List.filter_append, List.map_append]
    have hwm : m.weight.isSome = true := hw m (by simp)
    obtain ⟨hrgw, hrgb⟩ := hrg m (by simp)
    obtain ⟨ws, hws⟩ := Option.isSome_iff_exists.mp hwm
    have hhead : (((modParams m).filter (fun p => p.2)).map (fun p => p.1))
        = wShape m :: (m.bias.map id).toList := by
      unfold modParams wShape
      rw [hws]
      cases hbc : m.bias with
      | none => simp [hrgw]
      | some bsh => simp [hrgw, hrgb]
    rw [hhead, ih (fun a ha => hw a (by simp [ha])) (fun a ha => hrg a (by simp [ha]))]

/-- Construction succeeds on a model made only of supported layer classes
with fully-trainable, well-formed parameters, retaining every module. -/
theorem construction_ok_all_supported (model : List LayerMod)
    (hcls : ∀ m ∈ model, m.className = "Linear" ∨ m.className = "Conv2d")
    (hw : ∀ m ∈ model, m.weight.isSome = true)
    (hrg : ∀ m ∈ model, m.wReqGrad = true ∧ m.bReqGrad = true) :
    getIndividualModules model = Except.ok (model, pPosList model) := by
  have hfilter : model.filter (fun m => isSupported m) = model := by
    rw [List.filter_eq_self]
    intro m hm
    rcases hcls m hm with h | h <;> simp [isSupported, h]
  have hse : sizesMods model = sizesFlat model := by
    unfold sizesMods sizesFlat
    rw [hfilter]
    exact shapes_eq_params model hw hrg
  have hallw : model.all (fun m => m.weight.isSome) = true := by
    rw [List.all_eq_true]
    exact hw
  simp only [getIndividualModules]
  rw [hfilter, hallw, hse]
  simp [subsetCheck_true model]

/-- C4 (amended): convolutional layers are retained-but-unimplemented: for
a model whose (fully trainable, well-formed) parameters all belong to
`Linear` and `Conv2d` layers, Generator construction succeeds and retains
every layer; but when at least one retained `Conv2d` layer exists and the
loader is nonempty, both `get_matrix` and `implicit_m_norm` raise instead
of running the layer accumulation to completion (queries complete only
when every retained layer is `Linear`, cf. C1 and C3). -/
theorem claim4_theorem {R : Type} [CommRing R] (model : List LayerMod) (sizes : List ℕ)
    (x gy : ℕ → ℕ → Mat R) (bs nParams : ℕ) (v : List R) (b0 b1 : Buffers R)
    (hcls : ∀ m ∈ model, m.className = "Linear" ∨ m.className = "Conv2d")
    (hw : ∀ m ∈ model, m.weight.isSome = true)
    (hrg : ∀ m ∈ model, m.wReqGrad = true ∧ m.bReqGrad = true)
    (hN : 0 < sizes.length)
    (hconv : ∃ m ∈ model, m.className = "Conv2d") :
    getIndividualModules model = Except.ok (model, pPosList model) ∧
    errOf (getMatrixQ model sizes x gy b0) = some QErr.notImpl ∧
    (∃ e, errOf (implicitMNormQ model sizes x gy bs nParams v b1) = some e) := by
  have hbad : ∃ m ∈ model, ¬(m.className = "Linear") := by
    obtain ⟨m, hm, hmc⟩ := hconv
    refine ⟨m, hm, ?_⟩
    rw [hmc]
    decide
  exact ⟨construction_ok_all_supported model hcls hw hrg,
    (getMatrixQ_err model sizes x gy b0 hN hbad).1,
    (implicitMNormQ_err model sizes x gy bs nParams v b1 hN hbad).1⟩

/-- C4 (witness): the amended statement at the concrete `Conv2d`-only
model with one batch. -/
theorem claim4_witness :
    getIndividualModules [convMod] = Except.ok ([convMod], pPosList [convMod]) ∧
    errOf (getMatrixQ [convMod] [1] onesZ onesZ emptyBuffers) = some QErr.notImpl ∧
    (∃ e, errOf (implicitMNormQ [convMod] [1] onesZ onesZ 1 1 [1] emptyBuffers) = some e) :=
  claim4_theorem [convMod] [1] onesZ onesZ 1 1 [1] emptyBuffers emptyBuffers
    (by decide) (by decide) (by decide) (by decide) ⟨convMod, by decide, by decide⟩

/-- The shape entries one retained module contributes to `sizes_mods`:
its weight shape followed by its bias shape when a bias is present. -/
def modShapes (m : LayerMod) : List (List ℕ) := wShape m :: (m.bias.map id).toList

/-- Number of `sizes_mods` entries contributed by the first `k` retained
modules. -/
def shapesBefore (mods : List LayerMod) (k : ℕ) : ℕ :=
  ((mods.take k).map (fun m => (modShapes m).length)).sum

/-- The flat offset of the `k`-th retained module measured against the
model's own trainable-parameter concatenation: the total element count of
the `sizes_flat` entries preceding that module's weight. -/
def flatOffset (model : List LayerMod) (k : ℕ) : ℕ :=
  (((sizesFlat model).take
    (shapesBefore (model.filter (fun m => isSupported m)) k)).map List.prod).sum

theorem modShapes_numel (m : LayerMod) :
    ((modShapes m).map List.prod).sum = modNumel m := by
  unfold modShapes modNumel wNumel bNumel
  cases m.bias <;> simp

/-- The recorded `p_pos` offset of the `k`-th retained module equals the
total element count of the `sizes_mods` entries preceding it. -/
theorem pPos_shapes (mods : List LayerMod) : ∀ k, k ≤ mods.length →
    pPos mods k = ((((mods.map modShapes).flatten).take (shapesBefore mods k)).map
      List.prod).sum := by
  induction mods with
  | nil =>
    intro k hk
    have hk0 : k = 0 := by simpa using hk
    subst hk0
    simp [pPos, shapesBefore]
  | cons m rest ih =>
    intro k hk
    cases k with
    | zero => simp [pPos, shapesBefore]
    | succ j =>
      have hj : j ≤ rest.length := by simpa using hk
      have h1 : pPos (m :: rest) (j + 1) = modNumel m + pPos rest j := by
        simp [pPos, List.take_succ_cons]
      have h2 : shapesBefore (m :: rest) (j + 1) =
          (modShapes m).length + shapesBefore rest j := by
        simp [shapesBefore, List.take_succ_cons]
      rw [h1, h2]
      simp only [List.map_cons, List.flatten_cons]
      rw [List.take_append, List.map_append, List.sum_append, modShapes_numel, ih j hj]

/-- C7: with well-formed retained modules (each `Linear`/`Conv2d` module
has a weight attribute, as in any real torch model), Generator
construction raises an error if and only if the in-order concatenation of
the retained layers' parameter shapes (`sizes_mods`) differs from the
in-order concatenation of the model's trainable-parameter shapes
(`sizes_flat`); when the two coincide, construction succeeds returning the
retained modules with their recorded `p_pos` table, and each recorded flat
offset equals the offset of that layer's parameters in the model's own
trainable-parameter concatenation. -/
theorem claim7_theorem (model : List LayerMod)
    (hw : ∀ m ∈ model, isSupported m = true → m.weight.isSome = true) :
    ((∃ e, getIndividualModules model = Except.error e) ↔
      ¬(sizesMods model = sizesFlat model)) ∧
    (sizesMods model = sizesFlat model →
      getIndividualModules model = Except.ok
        (model.filter (fun m => isSupported m),
          pPosList (model.filter (fun m => isSupported m))) ∧
      ∀ k, k ≤ (model.filter (fun m => isSupported m)).length →
        pPos (model.filter (fun m => isSupported m)) k = flatOffset model k) := by
  have hallw : (model.filter (fun m => isSupported m)).all (fun m => m.weight.isSome) = true := by
    rw [List.all_eq_true]
    intro m hm
    exact hw m (List.mem_of_mem_filter hm) (List.of_mem_filter hm)
  have hok : sizesMods model = sizesFlat model →
      getIndividualModules model = Except.ok
        (model.filter (fun m => isSupported m),
          pPosList (model.filter (fun m => isSupported m))) := by
    intro heq
    simp [getIndividualModules, hallw, heq, subsetCheck_true model]
  constructor
  · constructor
    · rintro ⟨e, he⟩ heq
      rw [hok heq] at he
      exact absurd he (by simp)
    · intro hne
      refine ⟨QErr.assertFail, ?_⟩
      simp [getIndividualModules, hallw, hne]
  · intro heq
    refine ⟨hok heq, ?_⟩
    intro k hk
    unfold flatOffset
    rw [← heq]
    have hsm : sizesMods model =
        ((model.filter (fun m => isSupported m)).map modShapes).flatten := rfl
    rw [hsm]
    exact pPos_shapes _ k hk

/-- C7 (witness): the construction dichotomy at the concrete one-layer
model `nn.Linear(1,1)` with bias: shapes match, construction succeeds, and
the recorded offset past the layer equals the flat offset computed from
the model's own trainable parameters. -/
theorem claim7_witness :
    getIndividualModules [linModB] = Except.ok
      (([linModB] : List LayerMod).filter (fun m => isSupported m),
        pPosList (([linModB] : List LayerMod).filter (fun m => isSupported m))) ∧
    pPos (([linModB] : List LayerMod).filter (fun m => isSupported m)) 1 =
      flatOffset [linModB] 1 := by
  have h := claim7_theorem [linModB] (by decide)
  have h2 := h.2 (by decide)
  exact ⟨h2.1, h2.2 1 (by decide)⟩

section SliceLemmas

variable {R : Type} [CommRing R]

/-- Under the standard loader shape (every batch except the last has
exactly the nominal size `bs`, the last is no larger) and a caller vector
covering all examples, the nominal slice `v[b*bs : b*bs + bs]` is exactly
the sub-list of `v` at the batch's true example offset with the batch's
true size. -/
theorem batchSlice_eq (v : List R) (sizes : List ℕ) (bs : ℕ)
    (hv : v.length = sizes.sum)
    (hbs : ∀ j, j < sizes.length - 1 → sizes.getD j 0 = bs)
    (hlast : sizes.getD (sizes.length - 1) 0 ≤ bs)
    (b : ℕ) (hb : b < sizes.length) :
    batchSlice v bs b = (v.drop ((sizes.take b).sum)).take (sizes.getD b 0) := by
  have hoff : (sizes.take b).sum = b * bs :=
    sum_take_eq_mul (fun j hj => hbs j (by omega)) (by omega)
  unfold batchSlice
  rw [hoff]
  by_cases hbl : b < sizes.length - 1
  · rw [hbs b hbl]
  · have hbeq : b = sizes.length - 1 := by omega
    have hsum : sizes.sum = b * bs + sizes.getD b 0 := by
      have htot : sizes.sum = (sizes.take (b + 1)).sum + (sizes.drop (b + 1)).sum := by
        rw [← List.sum_append, List.take_append_drop]
      have hdrop : (sizes.drop (b + 1)).sum = 0 := by
        have : sizes.drop (b + 1) = [] := List.drop_eq_nil_of_le (by omega)
        rw [this]
        rfl
      rw [htot, hdrop, add_zero, take_succ_sum sizes b (by omega), hoff]
    have hlen : (v.drop (b * bs)).length = sizes.getD b 0 := by
      rw [List.length_drop, hv, hsum]
      omega
    have hle : sizes.getD b 0 ≤ bs := by
      rw [hbeq] at hbl ⊢
      exact hlast
    rw [List.take_of_length_le (by omega), List.take_of_length_le (by omega)]

theorem batchSlice_length (v : List R) (sizes : List ℕ) (bs : ℕ)
    (hv : v.length = sizes.sum)
    (hbs : ∀ j, j < sizes.length - 1 → sizes.getD j 0 = bs)
    (hlast : sizes.getD (sizes.length - 1) 0 ≤ bs)
    (b : ℕ) (hb : b < sizes.length) :
    (batchSlice v bs b).length = sizes.getD b 0 := by
  rw [batchSlice_eq v sizes bs hv hbs hlast b hb]
  rw [List.length_take, List.length_drop, hv]
  have hsum : (sizes.take (b + 1)).sum ≤ sizes.sum := by
    have htot : sizes.sum = (sizes.take (b + 1)).sum + (sizes.drop (b + 1)).sum := by
      rw [← List.sum_append, List.take_append_drop]
    omega
  rw [take_succ_sum sizes b hb] at hsum
  omega

end SliceLemmas

/-- C10: in `implicit_m_norm` the per-batch slice of `v` is taken with the
loader's nominal batch size (`v[i:i+bs]`, `i = b*bs`); under the
precondition that `v` has length equal to the total example count and
every batch except possibly the (no larger) last one has exactly `bs`
examples, each batch nevertheless receives exactly the contiguous entries
of `v` corresponding to its own examples, the final slice being clipped to
the shorter last batch. -/
theorem claim10_theorem {R : Type} [CommRing R] (v : List R) (sizes : List ℕ) (bs : ℕ)
    (hv : v.length = sizes.sum)
    (hbs : ∀ j, j < sizes.length - 1 → sizes.getD j 0 = bs)
    (hlast : sizes.getD (sizes.length - 1) 0 ≤ bs)
    (b : ℕ) (hb : b < sizes.length) :
    batchSlice v bs b = (v.drop ((sizes.take b).sum)).take (sizes.getD b 0) :=
  batchSlice_eq v sizes bs hv hbs hlast b hb

/-- C10 (witness): the slice identity on a concrete vector over three
examples split into batches of sizes [2, 1] with nominal size 2, at the
clipped final batch. -/
theorem claim10_witness :
    batchSlice ([1, 2, 3] : List ℤ) 2 1 =
      (([1, 2, 3] : List ℤ).drop ((([2, 1] : List ℕ).take 1).sum)).take
        (([2, 1] : List ℕ).getD 1 0) :=
  claim10_theorem [1, 2, 3] [2, 1] 2 (by decide) (by decide) (by decide) 1 (by decide)

section MNormSpec

variable {R : Type} [CommRing R]

/-- Weight-slice contribution of one `Linear` layer to the flat
accumulator at index `t`: the entry of `mm(gy.t(), c.view(-1,1) * xs)`
flattened row-major into the slice `[st, st + weight.numel())`. -/
def mNormTermW (m : LayerMod) (xs gyM : Mat R) (c : List R) (nb st t : ℕ) : R :=
  if st ≤ t ∧ t < st + wNumel m then
    ∑ a ∈ Finset.range nb, gyM a ((t - st) / dIn m) * (c.getD a 0 * xs a ((t - st) % dIn m))
  else 0

/-- Bias-slice contribution of one `Linear` layer at index `t`: the entry
of `mv(gy.t(), c)` in the slice following the weight slice (zero when the
layer has no bias). -/
def mNormTermB (m : LayerMod) (gyM : Mat R) (c : List R) (nb st t : ℕ) : R :=
  if hasBias m = true ∧ st + wNumel m ≤ t ∧ t < st + wNumel m + bNumel m then
    ∑ a ∈ Finset.range nb, gyM a (t - (st + wNumel m)) * c.getD a 0
  else 0

/-- Everything batch `b` adds to the accumulator at flat index `t`:
one weight-slice and one bias-slice contribution per retained layer. -/
def batchMNorm (mods : List LayerMod) (sizes : List ℕ) (x gy : ℕ → ℕ → Mat R)
    (bs : ℕ) (v : List R) (b : ℕ) : ℕ → R := fun t =>
  ((mods.enum).map (fun km =>
    mNormTermW km.2 (x km.1 b) (gy km.1 b) (batchSlice v bs b) (sizes.getD b 0)
      (pPos mods km.1) t
    + mNormTermB km.2 (gy km.1 b) (batchSlice v bs b) (sizes.getD b 0)
      (pPos mods km.1) t)).sum

/-- The spec's description of the implicit product output buffer: over one
pass of the loader, for each batch with slice `c` of `v`, each retained
layer adds `GY^T (c ⊙ X)` on its weight slice and `GY^T c` on its bias
slice (spec section 4.1, implicit matrix-vector product algorithm). -/
def specMNormOut (mods : List LayerMod) (sizes : List ℕ) (x gy : ℕ → ℕ → Mat R)
    (bs : ℕ) (v : List R) : ℕ → R := fun t =>
  ∑ b ∈ Finset.range sizes.length, batchMNorm mods sizes x gy bs v b t

theorem mNormHooks_ok (mods : List LayerMod) (x gy : ℕ → ℕ → Mat R) (b : ℕ) (c : List R)
    (nb : ℕ) (hc : c.length = nb) :
    ∀ (l : List (ℕ × LayerMod)), (∀ p ∈ l, p.2.className = "Linear") → ∀ w : ℕ → R,
      mNormHooks mods x gy b c nb l w =
        (fun t => w t + ((l.map (fun km =>
          mNormTermW km.2 (x km.1 b) (gy km.1 b) c nb (pPos mods km.1) t
          + mNormTermB km.2 (gy km.1 b) c nb (pPos mods km.1) t)).sum), none) := by
  intro l
  induction l with
  | nil =>
    intro _ w
    have h0 : (fun t => w t + ((([] : List (ℕ × LayerMod)).map (fun km =>
        mNormTermW km.2 (x km.1 b) (gy km.1 b) c nb (pPos mods km.1) t
        + mNormTermB km.2 (gy km.1 b) c nb (pPos mods km.1) t)).sum)) = w := by
      funext t
      simp
    rw [h0]
    rfl
  | cons km rest ih =>
    intro hl w
    rcases km with ⟨li, m⟩
    have hm : m.className = "Linear" := hl (li, m) (by simp)
    have hrest : ∀ p ∈ rest, p.2.className = "Linear" := fun p hp => hl p (by simp [hp])
    show (if m.className = "Linear" then _ else _) = _
    rw [if_pos hm, if_pos hc]
    rcases hhb : hasBias m with _ | _
    · simp only [hhb, Bool.false_eq_true, ite_false]
      rw [ih hrest]
      refine Prod.ext ?_ rfl
      simp only []
      funext t
      rw [rangeAdd_apply, List.map_cons, List.sum_cons]
      have hw : mNormTermW m (x li b) (gy li b) c nb (pPos mods li) t =
          (if pPos mods li ≤ t ∧ t < pPos mods li + wNumel m then
            ∑ a ∈ Finset.range nb,
              gy li b a ((t - pPos mods li) / dIn m) *
                (c.getD a 0 * x li b a ((t - pPos mods li) % dIn m))
          else 0) := rfl
      have hbz : mNormTermB m (gy li b) c nb (pPos mods li) t = 0 := by
        unfold mNormTermB
        rw [if_neg]
        rintro ⟨h1, _⟩
        rw [hhb] at h1
        exact absurd h1 (by simp)
      rw [hw, hbz]
      ring
    · simp only [hhb, ite_true]
      rw [ih hrest]
      refine Prod.ext ?_ rfl
      simp only []
      funext t
      rw [rangeAdd_apply, rangeAdd_apply, List.map_cons, List.sum_cons]
      have hw : mNormTermW m (x li b) (gy li b) c nb (pPos mods li) t =
          (if pPos mods li ≤ t ∧ t < pPos mods li + wNumel m then
            ∑ a ∈ Finset.range nb,
              gy li b a ((t - pPos mods li) / dIn m) *
                (c.getD a 0 * x li b a ((t - pPos mods li) % dIn m))
          else 0) := rfl
      have hbv : mNormTermB m (gy li b) c nb (pPos mods li) t =
          (if pPos mods li + wNumel m ≤ t ∧ t < pPos mods li + wNumel m + bNumel m then
            ∑ a ∈ Finset.range nb, gy li b a (t - (pPos mods li + wNumel m)) * c.getD a 0
          else 0) := by
        simp [mNormTermB, hhb]
      rw [hw, hbv]
      ring

theorem mNormStep_ok (mods : List LayerMod) (sizes : List ℕ) (x gy : ℕ → ℕ → Mat R)
    (bs : ℕ) (v : List R) (b : ℕ) (s : EngSt R)
    (hlin : ∀ m ∈ mods, m.className = "Linear")
    (hc : (batchSlice v bs b).length = sizes.getD b 0) :
    mNormStep mods sizes x gy bs v b s =
      ({ s with
          bufs := { s.bufs with xs := storeAll mods x b s.bufs.xs },
          c := batchSlice v bs b,
          cTv := fun t => s.cTv t + batchMNorm mods sizes x gy bs v b t }, none) := by
  have hall : ∀ p ∈ mods.enum, p.2.className = "Linear" :=
    fun p hp => hlin p.2 (mem_enum_snd hp)
  simp only [mNormStep]
  rw [mNormHooks_ok mods x gy b (batchSlice v bs b) (sizes.getD b 0) hc (mods.enum)
    hall s.cTv]
  rfl

theorem mNormLoop_inv (mods : List LayerMod) (sizes : List ℕ) (x gy : ℕ → ℕ → Mat R)
    (bs : ℕ) (v : List R) (b0 : Buffers R)
    (hlin : ∀ m ∈ mods, m.className = "Linear")
    (hcs : ∀ b, b < sizes.length → (batchSlice v bs b).length = sizes.getD b 0) :
    ∀ j, j ≤ sizes.length →
      ∃ s1, foldSteps (mNormStep mods sizes x gy bs v) (List.range j) (initSt b0) =
          (s1, none) ∧
        ∀ t, s1.cTv t = ∑ b ∈ Finset.range j, batchMNorm mods sizes x gy bs v b t := by
  intro j
  induction j with
  | zero =>
    intro _
    refine ⟨initSt b0, rfl, ?_⟩
    intro t
    simp [initSt]
  | succ n ih =>
    intro hn
    obtain ⟨s1, hfold, hcTv⟩ := ih (by omega)
    rw [List.range_succ, foldSteps_append_ok _ _ _ _ _ hfold]
    simp only [foldSteps]
    rw [mNormStep_ok mods sizes x gy bs v n s1 hlin (hcs n (by omega))]
    refine ⟨_, rfl, ?_⟩
    intro t
    simp only []
    rw [hcTv t, Finset.sum_range_succ]

end MNormSpec

/-- C3: over real-valued instrumentation data, with all retained layers
`Linear`, a caller vector `v` of length N (the total example count) and
the standard loader shape (all batches of nominal size `bs` except a
possibly shorter last one), `implicit_m_norm` makes its single pass over
the loader and returns exactly the Euclidean norm of the accumulated
parameter-sized buffer described by the spec: for each batch with slice
`c` of `v`, each retained `Linear` layer adds `GY^T (c ⊙ X)` on its
weight slice and `GY^T c` on its bias slice (`specMNormOut`). -/
theorem claim3_theorem (mods : List LayerMod) (sizes : List ℕ) (x gy : ℕ → ℕ → Mat ℝ)
    (bs nParams : ℕ) (v : List ℝ) (b0 : Buffers ℝ)
    (hlin : ∀ m ∈ mods, m.className = "Linear")
    (hv : v.length = sizes.sum)
    (hbs : ∀ j, j < sizes.length - 1 → sizes.getD j 0 = bs)
    (hlast : sizes.getD (sizes.length - 1) 0 ≤ bs) :
    implicitMNorm mods sizes x gy bs nParams v b0 =
      Except.ok (Real.sqrt (∑ k ∈ Finset.range nParams,
        (specMNormOut mods sizes x gy bs v k) ^ 2)) := by
  have hcs : ∀ b, b < sizes.length → (batchSlice v bs b).length = sizes.getD b 0 :=
    fun b hb => batchSlice_length v sizes bs hv hbs hlast b hb
  obtain ⟨s1, hfold, hcTv⟩ :=
    mNormLoop_inv mods sizes x gy bs v b0 hlin hcs sizes.length (Nat.le_refl _)
  unfold implicitMNorm
  simp only [implicitMNormQ]
  rw [hfold]
  simp only [Except.map]
  have hsum : (∑ k ∈ Finset.range nParams, (s1.cTv k) ^ 2) =
      ∑ k ∈ Finset.range nParams, (specMNormOut mods sizes x gy bs v k) ^ 2 :=
    Finset.sum_congr rfl (fun k _ => by rw [hcTv k]; rfl)
  rw [hsum]

def onesR : ℕ → ℕ → Mat ℝ := fun _ _ _ _ => 1

/-- C3 (witness): the m-norm identity at a concrete instance — one
`Linear` layer with bias, one batch of one example, all-ones captures,
caller vector `[1]`. -/
theorem claim3_witness :
    implicitMNorm [linModB] [1] onesR onesR 1 2 [1] emptyBuffers =
      Except.ok (Real.sqrt (∑ k ∈ Finset.range 2,
        (specMNormOut [linModB] [1] onesR onesR 1 [1] k) ^ 2)) :=
  claim3_theorem [linModB] [1] onesR onesR 1 2 [1] emptyBuffers
    (by decide) (by decide) (by decide) (by decide)
